import Mathlib

/-!
Shallow embedding of `src/deduplicate.py` (functions `organize_duplicates` and
`has_image_files`).

Modelling choices:

* A run operates on a fixed snapshot of the source tree, represented as the
  list of files produced by `os.walk(source_directory)` in discovery order.
  Each walked file is a `WalkEntry` holding the name yielded by the walk
  (`file` in the Python code), the joined full path (`filepath`), whether
  opening/reading it succeeds (`readable`; the `try` at deduplicate.py:48-55
  succeeds exactly for readable files), the MD5 hex digest its bytes hash to
  (`digest`, meaningful when readable), and the perceptual hash `imagehash.phash`
  would produce if the file decodes as an image (`fp`, `none` when `PIL.Image.open`
  fails on a readable file).  `os.walk` yields each path at most once per walk,
  so theorems that need it take the hypothesis that the paths are pairwise
  distinct.
* MD5 is modelled abstractly through the `digest` field: the code never inspects
  digests beyond equality, dictionary keying and printing.
* Strings model Python strings; `splitext`, `basename` and `lower` are
  implemented after `os.path.splitext` / `os.path.basename` / `str.lower`
  (POSIX separator).
* The in-memory dict `hashes` (insertion ordered in Python 3.7+) is an
  association list to which `updateAssoc` appends exactly as
  `hashes[file_hash].append(filepath)` does.
* File outputs that the claims mention are modelled structurally:
  `duplicates_index.txt` as a list of `DupBlock` records (opened in append
  mode, so a run maps prior content to prior content plus new blocks) and
  `master_file_index.txt` as the list of written mapping lines (opened in
  write mode, so prior content is discarded).
-/

/-- Count of leading `.` characters, used by the `os.path.splitext` rule that
a dot belonging to the leading run of dots of a basename does not start an
extension. -/
def leadingDots : List Char → Nat
  | [] => 0
  | c :: t => if c = '.' then leadingDots t + 1 else 0

/-- Index of the last `.` in the character list, if any. -/
def lastDotPos : List Char → Option Nat
  | [] => none
  | c :: t =>
      match lastDotPos t with
      | some i => some (i + 1)
      | none => if c = '.' then some 0 else none

/-- `os.path.splitext` on a basename (no separators): split at the last dot
provided some earlier character is not a dot. -/
def splitExtChars (s : List Char) : List Char × List Char :=
  match lastDotPos s with
  | some i => if leadingDots s < i then (s.take i, s.drop i) else (s, [])
  | none => (s, [])

/-- Characters after the last `/` separator, as `os.path.basename` keeps. -/
def basenameChars (s : List Char) : List Char :=
  ((s.reverse.takeWhile (fun c => ¬ (c = '/'))).reverse)

/-- `os.path.basename` for POSIX paths. -/
def basenameStr (s : String) : String :=
  String.mk (basenameChars s.toList)

/-- `os.path.splitext` applied to a basename string. -/
def splitExtBaseStr (s : String) : String × String :=
  (String.mk (splitExtChars s.toList).1, String.mk (splitExtChars s.toList).2)

/-- `os.path.splitext(p)[1]`: the extension of the tail component of `p`
(`splitext` only ever splits inside the final path component). -/
def extOf (p : String) : String :=
  (splitExtBaseStr (basenameStr p)).2

/-- `str.lower` restricted to what the code compares (ASCII extensions). -/
def strToLower (s : String) : String :=
  String.mk (s.toList.map Char.toLower)

/-- `f"{n:05d}"`: decimal digits left padded with zeros to width 5. -/
def pad5 (n : Nat) : String :=
  String.mk (List.replicate (5 - (toString n).length) '0') ++ toString n

/-- One file yielded by walking the source tree: the walk name, the joined
path, whether reading succeeds, the MD5 digest of its bytes, and the
perceptual hash it decodes to (if it is a decodable image). -/
structure WalkEntry where
  name : String
  path : String
  readable : Bool
  digest : String
  fp : Option (List Bool)
deriving DecidableEq

/-- Paths of a walked tree, in walk order. -/
def treePaths (tree : List WalkEntry) : List String :=
  tree.map (fun e => e.path)

/-- Paths of the files the first pass hashes successfully
(deduplicate.py:48-55: the `try` body succeeds exactly for readable files). -/
def readablePaths (tree : List WalkEntry) : List String :=
  (tree.filter (fun e => e.readable)).map (fun e => e.path)

/-- `hashes[file_hash].append(filepath)` preceded by the `if file_hash not in
hashes: hashes[file_hash] = []` guard (deduplicate.py:51-53), on an insertion
ordered association list. -/
def updateAssoc : List (String × List String) → String → String → List (String × List String)
  | [], d, p => [(d, [p])]
  | (k, ps) :: rest, d, p =>
      if k = d then (k, ps ++ [p]) :: rest else (k, ps) :: updateAssoc rest d p

/-- The first walk (deduplicate.py:41-55): fold the tree into the digest →
paths dictionary, skipping unreadable files. -/
def hashesGo : List (String × List String) → List WalkEntry → List (String × List String)
  | m, [] => m
  | m, e :: t => hashesGo (if e.readable then updateAssoc m e.digest e.path else m) t

/-- The `hashes` dictionary after the first pass. -/
def hashes (tree : List WalkEntry) : List (String × List String) :=
  hashesGo [] tree

/-- `exact_dup_groups = [paths for paths in hashes.values() if len(paths) > 1]`
(deduplicate.py:58). -/
def exact_dup_groups (tree : List WalkEntry) : List (List String) :=
  ((hashes tree).filter (fun kv => 1 < kv.2.length)).map (fun kv => kv.2)

/-- All digest buckets' paths joined (the multiset of successfully hashed
paths). -/
def bucketPaths (m : List (String × List String)) : List String :=
  (m.map (fun kv => kv.2)).flatten

/-- Re-reading `group[0]` and hashing its bytes (deduplicate.py:74-75): in the
snapshot model, the digest of the first file found at that path. -/
def digestOfPath (tree : List WalkEntry) (p : String) : Option String :=
  (tree.find? (fun e => e.path = p)).map (fun e => e.digest)

/-- One entry of the `file_mapping` dict (deduplicate.py:66,89,130): the
counter value the consolidated file was numbered with, the new sequential
filename, the source path that was copied (`first_file` for a duplicate
group, the unique path for a singleton), and the recorded original paths. -/
structure ConsEntry where
  num : Nat
  newName : String
  src : String
  origs : List String
deriving DecidableEq

/-- One block appended to `consolidated_files/duplicates_index.txt`
(deduplicate.py:92-98): new filename, group hash, duplicate path list. -/
structure DupBlock where
  file : String
  hash : String
  dups : List String
deriving DecidableEq

/-- The mutable state threaded through the consolidation loops:
`file_counter`, `processed_hashes`, `file_mapping` (insertion ordered), and
the current content of `duplicates_index.txt`. -/
structure ConsState where
  counter : Nat
  processed : List String
  mapping : List ConsEntry
  dupIndex : List DupBlock
deriving DecidableEq

/-- Body of the exact-duplicate group loop (deduplicate.py:69-98) restricted
to the state the claims mention: re-hash `group[0]`, mark its hash processed,
copy the first file to the consolidated directory under the next sequential
name, record the mapping, and append a block to `duplicates_index.txt`. -/
def groupStep (tree : List WalkEntry) (s : ConsState) (group : List String) : ConsState :=
  let first := group.headD ""
  let group_hash := (digestOfPath tree first).getD ""
  let new_filename := pad5 s.counter ++ extOf first
  ⟨s.counter + 1,
   s.processed ++ [group_hash],
   s.mapping ++ [⟨s.counter, new_filename, first, group⟩],
   s.dupIndex ++ [⟨new_filename, group_hash, group⟩]⟩

/-- The exact-duplicate group loop. -/
def groupsGo (tree : List WalkEntry) : ConsState → List (List String) → ConsState
  | s, [] => s
  | s, g :: gs => groupsGo tree (groupStep tree s g) gs

/-- Body of the unique-file loop (deduplicate.py:119-133): for a digest with
exactly one path whose hash is not yet processed, copy it under the next
sequential name, record the mapping, and mark the hash processed. -/
def uniqueStep (s : ConsState) (kv : String × List String) : ConsState :=
  if kv.2.length = 1 ∧ kv.1 ∉ s.processed then
    let filepath := kv.2.headD ""
    let new_filename := pad5 s.counter ++ extOf filepath
    ⟨s.counter + 1,
     s.processed ++ [kv.1],
     s.mapping ++ [⟨s.counter, new_filename, filepath, [filepath]⟩],
     s.dupIndex⟩
  else s

/-- The unique-file loop over `hashes.items()` in insertion order. -/
def uniquesGo : ConsState → List (String × List String) → ConsState
  | s, [] => s
  | s, kv :: kvs => uniquesGo (uniqueStep s kv) kvs

/-- The consolidation phases of one run (deduplicate.py:62-133):
`file_counter = 1`, empty `processed_hashes` and `file_mapping`,
`duplicates_index.txt` holding whatever content previous runs left (append
mode), then the group loop followed by the unique-file loop. -/
def runConsolidation (tree : List WalkEntry) (dupInit : List DupBlock) : ConsState :=
  uniquesGo (groupsGo tree ⟨1, [], [], dupInit⟩ (exact_dup_groups tree)) (hashes tree)

/-- `file_mapping` at the end of a run (as a fresh in-memory dict, it does not
depend on prior index-file content). -/
def file_mapping (tree : List WalkEntry) : List ConsEntry :=
  (runConsolidation tree []).mapping

/-- Final value of `file_counter`. -/
def file_counter (tree : List WalkEntry) : Nat :=
  (runConsolidation tree []).counter

/-- The value `organize_duplicates` returns (deduplicate.py:232):
`file_counter - 1`. -/
def organize_duplicates (tree : List WalkEntry) : Nat :=
  file_counter tree - 1

/-- Content of `consolidated_files/duplicates_index.txt` after a run that
started with content `dupInit` (the file is opened in append mode,
deduplicate.py:92). -/
def duplicates_index (tree : List WalkEntry) (dupInit : List DupBlock) : List DupBlock :=
  (runConsolidation tree dupInit).dupIndex

/-- Content of `consolidated_files/master_file_index.txt` after a run whose
prior content was `oldContent`: the file is opened with mode `"w"`
(deduplicate.py:136), so the old content is truncated away and the new
content lists each mapping entry's filename and original paths. -/
def master_file_index (tree : List WalkEntry)
    (oldContent : List (String × List String)) : List (String × List String) :=
  (file_mapping tree).map (fun en => (en.newName, en.origs))

/-- The original-path lists of the mapping, joined. -/
def origsOf (entries : List ConsEntry) : List String :=
  (entries.map (fun en => en.origs)).flatten

/-- The extension set checked by `has_image_files` (deduplicate.py:244). -/
def image_extensions : List String :=
  [".jpg", ".jpeg", ".png", ".gif", ".bmp", ".tiff", ".webp"]

/-- `has_image_files` (deduplicate.py:234-251): walk the tree and report
whether any file name has a known image extension after lowercasing. -/
def has_image_files (tree : List WalkEntry) : Bool :=
  tree.any (fun e => image_extensions.contains (strToLower (splitExtBaseStr e.name).2))

/-- The attempt `Image.open(filepath)` + `imagehash.phash` of the second pass
(deduplicate.py:168-174): it reads the file, so it raises for unreadable
files and for readable files that do not decode as images; otherwise it
yields the stored fingerprint. -/
def decodeFp (e : WalkEntry) : Option (List Bool) :=
  if e.readable then e.fp else none

/-- `exact_dup_files` (deduplicate.py:151-154): every path of every exact
duplicate group. -/
def exact_dup_files (tree : List WalkEntry) : List String :=
  (exact_dup_groups tree).flatten

/-- The second walk (deduplicate.py:160-178): collect `(phash, filepath)` in
walk order, skipping paths already in an exact duplicate group and files the
perceptual hash attempt fails on. -/
def imageHashesGo (ex : List String) : List WalkEntry → List (List Bool × String)
  | [] => []
  | e :: t =>
      if e.path ∈ ex then imageHashesGo ex t
      else
        match decodeFp e with
        | some h => (h, e.path) :: imageHashesGo ex t
        | none => imageHashesGo ex t

/-- `image_hashes` after the second walk. -/
def image_hashes (tree : List WalkEntry) : List (List Bool × String) :=
  imageHashesGo (exact_dup_files tree) tree

/-- `threshold = 5` (deduplicate.py:184). -/
def threshold : Nat := 5

/-- `h1 - h2` on imagehash values: the Hamming distance, the number of
positions at which the two bit vectors differ. -/
def hamming : List Bool → List Bool → Nat
  | a :: as, b :: bs => (if a = b then 0 else 1) + hamming as bs
  | _, _ => 0

/-- The paths of a fingerprint list. -/
def pathsOf (l : List (List Bool × String)) : List String :=
  l.map (fun hp => hp.2)

/-- The inner scan of the clusterer (deduplicate.py:192-198): walk the pairs
after the seed, skip paths already in `checked`, and for the rest add the
path to the current group and to `checked` whenever its distance to the
seed's fingerprint is within the threshold.  Returns the added paths in
order and the final `checked`. -/
def scanAdd (h1 : List Bool) : List (List Bool × String) → List String → List String × List String
  | [], checked => ([], checked)
  | (h2, p2) :: rest, checked =>
      if p2 ∈ checked then scanAdd h1 rest checked
      else if hamming h1 h2 ≤ threshold then
        (p2 :: (scanAdd h1 rest (checked ++ [p2])).1, (scanAdd h1 rest (checked ++ [p2])).2)
      else scanAdd h1 rest checked

/-- The outer clustering loop (deduplicate.py:186-202).  Pairs are processed
in input order; a pair whose path is already in `checked` is skipped;
otherwise it seeds `current_group`, the inner scan runs over the remaining
pairs, and the group is emitted (and the seed marked checked) only when it
has more than one member.  The first component collects the emitted groups;
the second records the seeds of the discarded singleton groups. -/
def clusterGo : List (List Bool × String) → List String → List (List String) × List String
  | [], _ => ([], [])
  | (h1, p1) :: rest, checked =>
      if p1 ∈ checked then clusterGo rest checked
      else
        let adds := (scanAdd h1 rest checked).1
        let c2 := (scanAdd h1 rest checked).2
        if adds = [] then
          ((clusterGo rest c2).1, p1 :: (clusterGo rest c2).2)
        else
          ((p1 :: adds) :: (clusterGo rest (c2 ++ [p1])).1, (clusterGo rest (c2 ++ [p1])).2)

/-- The clusterer on a fingerprint list: the emitted groups. -/
def simCluster (l : List (List Bool × String)) : List (List String) :=
  (clusterGo l []).1

/-- Seeds whose group was discarded for having size 1. -/
def discardedSeeds (l : List (List Bool × String)) : List String :=
  (clusterGo l []).2

/-- `similar_groups` of a run: the whole similarity phase is guarded by
`has_image_files` (deduplicate.py:147), so no groups exist without it. -/
def similar_groups (tree : List WalkEntry) : List (List String) :=
  if has_image_files tree then simCluster (image_hashes tree) else []

/-- The fingerprints a run computes: none at all unless the
`has_image_files` guard passes. -/
def run_image_hashes (tree : List WalkEntry) : List (List Bool × String) :=
  if has_image_files tree then image_hashes tree else []

/-- Destination naming of the per-group copy loops (deduplicate.py:101-110
with suffix `"_dup"`, deduplicate.py:211-220 with suffix `"_similar"`): the
`j`-th member keeps its basename unless a file of that name already exists
in the group directory, in which case the suffix and `j` are inserted before
the extension; the chosen name is not re-checked.  `dir` is the set of names
present in the group directory; `shutil.copy2` overwrites, so the set gains
the chosen name. -/
def copyGroupGo (sfx : String) : List String → Nat → List String → List String
  | [], _, _ => []
  | fp :: rest, j, dir =>
      let filename := basenameStr fp
      let dest :=
        if filename ∈ dir then
          (splitExtBaseStr filename).1 ++ sfx ++ toString j ++ (splitExtBaseStr filename).2
        else filename
      dest :: copyGroupGo sfx rest (j + 1) (dir ++ [dest])

/-- Destination names, in member order, of copying one group into a fresh
group directory (`group_N` directories are created by this run). -/
def copyGroupDests (sfx : String) (group : List String) : List String :=
  copyGroupGo sfx group 0 []

/-- The counter values of the mapping entries, in insertion order. -/
def nums (entries : List ConsEntry) : List Nat :=
  entries.map (fun en => en.num)

/-- The digest keys of the `hashes` dictionary, in insertion order. -/
def assocKeys (m : List (String × List String)) : List String :=
  m.map (fun kv => kv.1)

/-! ### Concrete sample data (used by closed instance theorems) -/

/-- An 8-bit all-zero fingerprint. -/
def fpZero : List Bool := [false, false, false, false, false, false, false, false]

/-- Fingerprint at Hamming distance 1 from `fpZero`. -/
def fpOne : List Bool := [true, false, false, false, false, false, false, false]

/-- Fingerprint at Hamming distance 8 from `fpZero` and 7 from `fpOne`. -/
def fpFar : List Bool := [true, true, true, true, true, true, true, true]

/-- A small walked tree: two byte-identical images, a unique binary file, and
an unreadable file. -/
def sampleTree : List WalkEntry :=
  [⟨"a.jpg", "s/a.jpg", true, "h1", some fpFar⟩,
   ⟨"b.jpg", "s/b.jpg", true, "h1", some fpFar⟩,
   ⟨"c.bin", "s/c.bin", true, "h2", none⟩,
   ⟨"d.jpg", "s/d.jpg", false, "h3", none⟩]

/-- A walked tree with one exact-duplicate pair and one visually similar
pair of byte-distinct images. -/
def sampleTree2 : List WalkEntry :=
  [⟨"a.jpg", "s/a.jpg", true, "h1", some fpFar⟩,
   ⟨"b.jpg", "s/b.jpg", true, "h1", some fpFar⟩,
   ⟨"e.jpg", "s/e.jpg", true, "h4", some fpZero⟩,
   ⟨"f.jpg", "s/f.jpg", true, "h5", some fpOne⟩]

/-- A walked tree with no image-extension file at all. -/
def sampleTreeNoImg : List WalkEntry :=
  [⟨"c.bin", "s/c.bin", true, "h2", none⟩,
   ⟨"d.txt", "s/d.txt", true, "h6", none⟩]

/-- A fingerprint sequence whose first two paths are near each other and
whose third is far from both. -/
def sampleHashes : List (List Bool × String) :=
  [(fpZero, "p1"), (fpOne, "p2"), (fpFar, "p3")]

/-- An exact-duplicate group whose second member's basename equals the
collision fallback name of its third member. -/
def c8Group : List String := ["x/a.jpg", "y/a_dup2.jpg", "z/a.jpg"]

/-- A walked tree of three byte-identical files realizing `c8Group` as its
single exact-duplicate group. -/
def c8Tree : List WalkEntry :=
  [⟨"a.jpg", "x/a.jpg", true, "h1", none⟩,
   ⟨"a_dup2.jpg", "y/a_dup2.jpg", true, "h1", none⟩,
   ⟨"a.jpg", "z/a.jpg", true, "h1", none⟩]

/-! ### Counter lemmas -/

theorem groupStep_counter (tree : List WalkEntry) (s : ConsState) (g : List String) :
    (groupStep tree s g).counter = s.counter + 1 := rfl

theorem groupsGo_counter_nums (tree : List WalkEntry) (gs : List (List String)) :
    ∀ s : ConsState, ∃ k, (groupsGo tree s gs).counter = s.counter + k ∧
      nums (groupsGo tree s gs).mapping = nums s.mapping ++ List.range' s.counter k := by
  induction gs with
  | nil => intro s; exact ⟨0, by simp [groupsGo]⟩
  | cons g gs ih =>
      intro s
      obtain ⟨k, h1, h2⟩ := ih (groupStep tree s g)
      refine ⟨k + 1, ?_, ?_⟩
      · show (groupsGo tree (groupStep tree s g) gs).counter = _
        rw [h1, groupStep_counter]
        omega
      · show nums (groupsGo tree (groupStep tree s g) gs).mapping = _
        rw [h2]
        have hmap : nums (groupStep tree s g).mapping = nums s.mapping ++ [s.counter] := by
          simp [groupStep, nums]
        rw [hmap, groupStep_counter, List.range'_succ, List.append_assoc]
        rfl

theorem uniquesGo_counter_nums (kvs : List (String × List String)) :
    ∀ s : ConsState, ∃ k, (uniquesGo s kvs).counter = s.counter + k ∧
      nums (uniquesGo s kvs).mapping = nums s.mapping ++ List.range' s.counter k := by
  induction kvs with
  | nil => intro s; exact ⟨0, by simp [uniquesGo]⟩
  | cons kv kvs ih =>
      intro s
      by_cases hc : kv.2.length = 1 ∧ kv.1 ∉ s.processed
      · obtain ⟨k, h1, h2⟩ := ih (uniqueStep s kv)
        refine ⟨k + 1, ?_, ?_⟩
        · show (uniquesGo (uniqueStep s kv) kvs).counter = _
          rw [h1]
          simp [uniqueStep, hc]
          omega
        · show nums (uniquesGo (uniqueStep s kv) kvs).mapping = _
          rw [h2]
          have hmap : nums (uniqueStep s kv).mapping = nums s.mapping ++ [s.counter] := by
            simp [uniqueStep, hc, nums]
          have hcnt : (uniqueStep s kv).counter = s.counter + 1 := by
            simp [uniqueStep, hc]
          rw [hmap, hcnt, List.range'_succ, List.append_assoc]
          rfl
      · obtain ⟨k, h1, h2⟩ := ih (uniqueStep s kv)
        have hstep : uniqueStep s kv = s := by simp [uniqueStep, hc]
        refine ⟨k, ?_, ?_⟩
        · show (uniquesGo (uniqueStep s kv) kvs).counter = s.counter + k
          rw [h1, hstep]
        · show nums (uniquesGo (uniqueStep s kv) kvs).mapping = _
          rw [h2, hstep]

theorem runConsolidation_counter_nums (tree : List WalkEntry) :
    ∃ k, (runConsolidation tree []).counter = 1 + k ∧
      nums (runConsolidation tree []).mapping = List.range' 1 k := by
  obtain ⟨k1, hg1, hg2⟩ :=
    groupsGo_counter_nums tree (exact_dup_groups tree) ⟨1, [], [], []⟩
  obtain ⟨k2, hu1, hu2⟩ :=
    uniquesGo_counter_nums (hashes tree) (groupsGo tree ⟨1, [], [], []⟩ (exact_dup_groups tree))
  refine ⟨k1 + k2, ?_, ?_⟩
  · have e1 : (runConsolidation tree []).counter
        = (uniquesGo (groupsGo tree ⟨1, [], [], []⟩ (exact_dup_groups tree)) (hashes tree)).counter := rfl
    rw [e1, hu1, hg1]
    show 1 + k1 + k2 = 1 + (k1 + k2)
    omega
  · have e2 : nums (runConsolidation tree []).mapping
        = nums (uniquesGo (groupsGo tree ⟨1, [], [], []⟩ (exact_dup_groups tree)) (hashes tree)).mapping := rfl
    rw [e2, hu2, hg2, hg1]
    show ([] : List Nat) ++ List.range' 1 k1 ++ List.range' (1 + k1) k2 = List.range' 1 (k1 + k2)
    have h := List.range'_append 1 k1 k2 1
    simp only [one_mul] at h
    rw [List.nil_append, h, Nat.add_comm]

/-- Claim C3: within one run the consolidated filename counter starts at 1 and
is incremented exactly once per `file_mapping` entry, so the assigned numbers
are exactly `1, 2, …, n` in order (strictly increasing, gapless, never
reused); `organize_duplicates` returns the final counter value minus 1, which
equals the number of consolidated entries created, and is 0 for an empty
source tree. -/
theorem claim_c3_counter_gapless (tree : List WalkEntry) :
    nums (file_mapping tree) = List.range' 1 (file_mapping tree).length ∧
    file_counter tree = (file_mapping tree).length + 1 ∧
    organize_duplicates tree = file_counter tree - 1 ∧
    organize_duplicates tree = (file_mapping tree).length ∧
    organize_duplicates ([] : List WalkEntry) = 0 := by
  obtain ⟨k, h1, h2⟩ := runConsolidation_counter_nums tree
  have hn : nums (file_mapping tree) = List.range' 1 k := h2
  have hlen : (file_mapping tree).length = k := by
    have hl : (nums (file_mapping tree)).length = (List.range' 1 k).length := by rw [hn]
    simpa [nums, List.length_range'] using hl
  have hc : file_counter tree = 1 + k := h1
  refine ⟨by rw [hn, hlen], by rw [hc, hlen]; omega, rfl, ?_, rfl⟩
  show file_counter tree - 1 = _
  rw [hc, hlen]
  omega

/-! ### Dictionary lemmas -/

theorem updateAssoc_count (m : List (String × List String)) (d p q : String) :
    (bucketPaths (updateAssoc m d p)).count q
      = (bucketPaths m).count q + if p = q then 1 else 0 := by
  induction m with
  | nil => simp [updateAssoc, bucketPaths, List.count_cons]
  | cons kv rest ih =>
      obtain ⟨k, ps⟩ := kv
      by_cases hk : k = d
      · simp only [updateAssoc, if_pos hk, bucketPaths, List.map_cons, List.flatten_cons,
          List.count_append]
        simp [List.count_cons]
        omega
      · simp only [updateAssoc, if_neg hk, bucketPaths, List.map_cons, List.flatten_cons,
          List.count_append]
        have := ih
        simp only [bucketPaths] at this
        omega

theorem hashesGo_count (t : List WalkEntry) :
    ∀ m q, (bucketPaths (hashesGo m t)).count q
      = (bucketPaths m).count q + (readablePaths t).count q := by
  induction t with
  | nil => intro m q; simp [hashesGo, readablePaths]
  | cons e t ih =>
      intro m q
      show (bucketPaths (hashesGo (if e.readable then updateAssoc m e.digest e.path else m) t)).count q = _
      by_cases hr : e.readable
      · rw [if_pos hr, ih, updateAssoc_count]
        have hread : readablePaths (e :: t) = e.path :: readablePaths t := by
          simp [readablePaths, List.filter_cons, hr]
        rw [hread, List.count_cons]
        have : (e.path == q) = true ↔ e.path = q := beq_iff_eq
        by_cases hq : e.path = q
        · simp [hq]; omega
        · simp [hq]
      · rw [if_neg hr, ih]
        have hread : readablePaths (e :: t) = readablePaths t := by
          simp [readablePaths, List.filter_cons, hr]
        rw [hread]

theorem hashes_count (tree : List WalkEntry) (q : String) :
    (bucketPaths (hashes tree)).count q = (readablePaths tree).count q := by
  have := hashesGo_count tree [] q
  simpa [hashes, bucketPaths] using this

theorem updateAssoc_sound {C : String → String → Prop} (m : List (String × List String))
    (d p : String) (hm : ∀ k ps, (k, ps) ∈ m → ∀ q ∈ ps, C q k) (hp : C p d) :
    ∀ k ps, (k, ps) ∈ updateAssoc m d p → ∀ q ∈ ps, C q k := by
  induction m with
  | nil =>
      intro k ps hmem q hq
      simp [updateAssoc] at hmem
      obtain ⟨hk, hps⟩ := hmem
      subst hk; subst hps
      simp at hq
      subst hq
      exact hp
  | cons kv rest ih =>
      obtain ⟨k0, ps0⟩ := kv
      intro k ps hmem q hq
      by_cases hk : k0 = d
      · simp only [updateAssoc, if_pos hk] at hmem
        rcases List.mem_cons.mp hmem with h | h
        · obtain ⟨h1, h2⟩ := Prod.mk.injEq .. ▸ h
          subst h1
          have : q ∈ ps0 ∨ q = p := by
            subst h2
            rcases List.mem_append.mp hq with h | h
            · exact Or.inl h
            · simp at h; exact Or.inr h
          rcases this with h | h
          · exact hm k ps0 (List.mem_cons_self _ _) q h
          · subst h; subst hk; exact hp
        · exact hm k ps (List.mem_cons_of_mem _ h) q hq
      · simp only [updateAssoc, if_neg hk] at hmem
        rcases List.mem_cons.mp hmem with h | h
        · obtain ⟨h1, h2⟩ := Prod.mk.injEq .. ▸ h
          subst h1; subst h2
          exact hm k ps (List.mem_cons_self _ _) q hq
        · exact ih (fun k' ps' h' => hm k' ps' (List.mem_cons_of_mem _ h')) k ps h q hq

theorem hashesGo_sound {C : String → String → Prop} (t : List WalkEntry) :
    ∀ m, (∀ k ps, (k, ps) ∈ m → ∀ q ∈ ps, C q k) →
      (∀ e ∈ t, e.readable = true → C e.path e.digest) →
      ∀ k ps, (k, ps) ∈ hashesGo m t → ∀ q ∈ ps, C q k := by
  induction t with
  | nil => intro m hm _ k ps hmem; exact hm k ps hmem
  | cons e t ih =>
      intro m hm ht k ps hmem
      show ∀ q ∈ ps, C q k
      have hmem' : (k, ps) ∈ hashesGo (if e.readable then updateAssoc m e.digest e.path else m) t := hmem
      by_cases hr : e.readable
      · rw [if_pos hr] at hmem'
        exact ih _ (updateAssoc_sound m e.digest e.path hm (ht e (List.mem_cons_self _ _) hr))
          (fun e' he' => ht e' (List.mem_cons_of_mem _ he')) k ps hmem'
      · rw [if_neg hr] at hmem'
        exact ih _ hm (fun e' he' => ht e' (List.mem_cons_of_mem _ he')) k ps hmem'

theorem hashes_sound (tree : List WalkEntry) (k : String) (ps : List String)
    (h : (k, ps) ∈ hashes tree) (q : String) (hq : q ∈ ps) :
    ∃ e ∈ tree, e.readable = true ∧ e.path = q ∧ e.digest = k := by
  refine hashesGo_sound (C := fun q k => ∃ e ∈ tree, e.readable = true ∧ e.path = q ∧ e.digest = k)
    tree [] (by simp) ?_ k ps h q hq
  intro e he hr
  exact ⟨e, he, hr, rfl, rfl⟩

theorem updateAssoc_mem_self (m : List (String × List String)) (d p : String) :
    ∃ ps, (d, ps) ∈ updateAssoc m d p ∧ p ∈ ps := by
  induction m with
  | nil => exact ⟨[p], by simp [updateAssoc], by simp⟩
  | cons kv rest ih =>
      obtain ⟨k0, ps0⟩ := kv
      by_cases hk : k0 = d
      · subst hk
        exact ⟨ps0 ++ [p], by simp [updateAssoc], by simp⟩
      · obtain ⟨ps, h1, h2⟩ := ih
        exact ⟨ps, by simp only [updateAssoc, if_neg hk]; exact List.mem_cons_of_mem _ h1, h2⟩

theorem updateAssoc_persist (m : List (String × List String)) (d p k : String)
    (ps : List String) (h : (k, ps) ∈ m) :
    ∃ ps2, (k, ps2) ∈ updateAssoc m d p ∧ ∀ q ∈ ps, q ∈ ps2 := by
  induction m with
  | nil => simp at h
  | cons kv rest ih =>
      obtain ⟨k0, ps0⟩ := kv
      by_cases hk : k0 = d
      · rcases List.mem_cons.mp h with h1 | h1
        · obtain ⟨e1, e2⟩ := Prod.mk.injEq .. ▸ h1
          subst e1; subst e2
          exact ⟨ps ++ [p], by simp [updateAssoc, hk], fun q hq => List.mem_append_left _ hq⟩
        · exact ⟨ps, by simp only [updateAssoc, if_pos hk]; exact List.mem_cons_of_mem _ h1,
            fun q hq => hq⟩
      · rcases List.mem_cons.mp h with h1 | h1
        · obtain ⟨e1, e2⟩ := Prod.mk.injEq .. ▸ h1
          subst e1; subst e2
          exact ⟨ps, by simp only [updateAssoc, if_neg hk]; exact List.mem_cons_self _ _,
            fun q hq => hq⟩
        · obtain ⟨ps2, h2, h3⟩ := ih h1
          exact ⟨ps2, by simp only [updateAssoc, if_neg hk]; exact List.mem_cons_of_mem _ h2, h3⟩

theorem hashesGo_persist (t : List WalkEntry) :
    ∀ m k ps, (k, ps) ∈ m →
      ∃ ps2, (k, ps2) ∈ hashesGo m t ∧ ∀ q ∈ ps, q ∈ ps2 := by
  induction t with
  | nil => intro m k ps h; exact ⟨ps, h, fun q hq => hq⟩
  | cons e t ih =>
      intro m k ps h
      by_cases hr : e.readable
      · obtain ⟨ps1, h1, h2⟩ := updateAssoc_persist m e.digest e.path k ps h
        obtain ⟨ps2, h3, h4⟩ := ih _ k ps1 h1
        refine ⟨ps2, ?_, fun q hq => h4 q (h2 q hq)⟩
        show (k, ps2) ∈ hashesGo (if e.readable then updateAssoc m e.digest e.path else m) t
        rw [if_pos hr]
        exact h3
      · obtain ⟨ps2, h3, h4⟩ := ih m k ps h
        refine ⟨ps2, ?_, h4⟩
        show (k, ps2) ∈ hashesGo (if e.readable then updateAssoc m e.digest e.path else m) t
        rw [if_neg hr]
        exact h3

theorem hashesGo_complete (t : List WalkEntry) :
    ∀ m e, e ∈ t → e.readable = true →
      ∃ ps, (e.digest, ps) ∈ hashesGo m t ∧ e.path ∈ ps := by
  induction t with
  | nil => intro m e he; simp at he
  | cons e0 t ih =>
      intro m e he hr
      rcases List.mem_cons.mp he with he | he
      · subst he
        obtain ⟨ps1, h1, h2⟩ := updateAssoc_mem_self m e.digest e.path
        obtain ⟨ps2, h3, h4⟩ := hashesGo_persist t _ e.digest ps1 h1
        refine ⟨ps2, ?_, h4 _ h2⟩
        show (e.digest, ps2) ∈ hashesGo (if e.readable then updateAssoc m e.digest e.path else m) t
        rw [if_pos hr]
        exact h3
      · obtain ⟨ps, h1, h2⟩ := ih (if e0.readable then updateAssoc m e0.digest e0.path else m) e he hr
        exact ⟨ps, h1, h2⟩

theorem hashes_complete (tree : List WalkEntry) (e : WalkEntry) (he : e ∈ tree)
    (hr : e.readable = true) :
    ∃ ps, (e.digest, ps) ∈ hashes tree ∧ e.path ∈ ps :=
  hashesGo_complete tree [] e he hr

theorem updateAssoc_keys (m : List (String × List String)) (d p : String) :
    assocKeys (updateAssoc m d p)
      = if d ∈ assocKeys m then assocKeys m else assocKeys m ++ [d] := by
  induction m with
  | nil => simp [updateAssoc, assocKeys]
  | cons kv rest ih =>
      obtain ⟨k0, ps0⟩ := kv
      by_cases hk : k0 = d
      · subst hk
        simp [updateAssoc, assocKeys]
      · have hne : ¬ d = k0 := fun h => hk h.symm
        simp only [updateAssoc, if_neg hk, assocKeys, List.map_cons]
        simp only [assocKeys] at ih
        rw [ih]
        by_cases hd : d ∈ List.map (fun kv => kv.1) rest
        · simp [hd, hne]
        · simp [hd, hne]

theorem hashesGo_keys_nodup (t : List WalkEntry) :
    ∀ m, (assocKeys m).Nodup → (assocKeys (hashesGo m t)).Nodup := by
  induction t with
  | nil => intro m hm; exact hm
  | cons e t ih =>
      intro m hm
      show (assocKeys (hashesGo (if e.readable then updateAssoc m e.digest e.path else m) t)).Nodup
      by_cases hr : e.readable
      · rw [if_pos hr]
        refine ih _ ?_
        rw [updateAssoc_keys]
        by_cases hd : e.digest ∈ assocKeys m
        · simpa [hd] using hm
        · simp only [if_neg hd]
          simpa [List.nodup_append, hd] using hm
      · rw [if_neg hr]
        exact ih m hm

theorem hashes_keys_nodup (tree : List WalkEntry) : (assocKeys (hashes tree)).Nodup :=
  hashesGo_keys_nodup tree [] (by simp [assocKeys])

theorem assoc_unique (m : List (String × List String)) (h : (assocKeys m).Nodup)
    (k : String) (ps1 ps2 : List String) (h1 : (k, ps1) ∈ m) (h2 : (k, ps2) ∈ m) :
    ps1 = ps2 := by
  induction m with
  | nil => simp at h1
  | cons kv rest ih =>
      obtain ⟨k0, ps0⟩ := kv
      have hnd : k0 ∉ assocKeys rest ∧ (assocKeys rest).Nodup := by
        simpa [assocKeys] using h
      rcases List.mem_cons.mp h1 with ha | ha
      · obtain ⟨e1, e2⟩ := Prod.mk.injEq .. ▸ ha
        subst e1; subst e2
        rcases List.mem_cons.mp h2 with hb | hb
        · exact (Prod.mk.injEq .. ▸ hb).2.symm
        · exact absurd (by simpa [assocKeys] using List.mem_map_of_mem (fun kv => kv.1) hb)
            hnd.1
      · rcases List.mem_cons.mp h2 with hb | hb
        · obtain ⟨e1, e2⟩ := Prod.mk.injEq .. ▸ hb
          subst e1
          exact absurd (by simpa [assocKeys] using List.mem_map_of_mem (fun kv => kv.1) ha)
            hnd.1
        · exact ih hnd.2 ha hb

theorem updateAssoc_ne_nil (m : List (String × List String)) (d p : String)
    (h : ∀ kv ∈ m, kv.2 ≠ []) : ∀ kv ∈ updateAssoc m d p, kv.2 ≠ [] := by
  induction m with
  | nil =>
      intro kv hkv
      simp [updateAssoc] at hkv
      subst hkv
      simp
  | cons kv0 rest ih =>
      obtain ⟨k0, ps0⟩ := kv0
      intro kv hkv
      by_cases hk : k0 = d
      · simp only [updateAssoc, if_pos hk] at hkv
        rcases List.mem_cons.mp hkv with hb | hb
        · subst hb; simp
        · exact h kv (List.mem_cons_of_mem _ hb)
      · simp only [updateAssoc, if_neg hk] at hkv
        rcases List.mem_cons.mp hkv with hb | hb
        · subst hb; exact h _ (List.mem_cons_self _ _)
        · exact ih (fun kv' h' => h kv' (List.mem_cons_of_mem _ h')) kv hb

theorem hashes_ne_nil (tree : List WalkEntry) : ∀ kv ∈ hashes tree, kv.2 ≠ [] := by
  have main : ∀ (t : List WalkEntry) m, (∀ kv ∈ m, kv.2 ≠ []) →
      ∀ kv ∈ hashesGo m t, kv.2 ≠ [] := by
    intro t
    induction t with
    | nil => intro m hm; exact hm
    | cons e t ih =>
        intro m hm kv hkv
        have hkv' : kv ∈ hashesGo (if e.readable then updateAssoc m e.digest e.path else m) t := hkv
        by_cases hr : e.readable
        · rw [if_pos hr] at hkv'
          exact ih _ (updateAssoc_ne_nil m e.digest e.path hm) kv hkv'
        · rw [if_neg hr] at hkv'
          exact ih m hm kv hkv'
  exact main tree [] (by simp)

/-! ### Tree-level path lemmas -/

theorem readablePaths_sublist (tree : List WalkEntry) :
    (readablePaths tree).Sublist (treePaths tree) := by
  show ((tree.filter (fun e => e.readable)).map (fun e => e.path)).Sublist
    (tree.map (fun e => e.path))
  exact (List.filter_sublist tree).map (fun e => e.path)

theorem count_readable_le_one (tree : List WalkEntry) (h : (treePaths tree).Nodup)
    (q : String) : (readablePaths tree).count q ≤ 1 :=
  le_trans ((readablePaths_sublist tree).count_le q) (List.nodup_iff_count_le_one.mp h q)

theorem mem_readablePaths (tree : List WalkEntry) (e : WalkEntry) (he : e ∈ tree)
    (hr : e.readable = true) : e.path ∈ readablePaths tree := by
  simp only [readablePaths, List.mem_map]
  exact ⟨e, List.mem_filter.mpr ⟨he, hr⟩, rfl⟩

theorem count_readable_eq_one (tree : List WalkEntry) (h : (treePaths tree).Nodup)
    (e : WalkEntry) (he : e ∈ tree) (hr : e.readable = true) :
    (readablePaths tree).count e.path = 1 := by
  have h1 : 0 < (readablePaths tree).count e.path :=
    List.count_pos_iff.mpr (mem_readablePaths tree e he hr)
  have h2 := count_readable_le_one tree h e.path
  omega

theorem path_inj (tree : List WalkEntry) (h : (treePaths tree).Nodup)
    (e1 e2 : WalkEntry) (h1 : e1 ∈ tree) (h2 : e2 ∈ tree) (hp : e1.path = e2.path) :
    e1 = e2 :=
  List.inj_on_of_nodup_map h h1 h2 hp

theorem count_readable_eq_zero (tree : List WalkEntry) (h : (treePaths tree).Nodup)
    (e : WalkEntry) (he : e ∈ tree) (hr : e.readable = false) :
    (readablePaths tree).count e.path = 0 := by
  rw [List.count_eq_zero]
  intro hmem
  simp only [readablePaths, List.mem_map] at hmem
  obtain ⟨e2, he2, hp⟩ := hmem
  have hre : e2.readable = true := (List.mem_filter.mp he2).2
  have := path_inj tree h e2 e (List.mem_filter.mp he2).1 he hp
  subst this
  rw [hre] at hr
  simp at hr

theorem find?_path_eq (tree : List WalkEntry) (h : (treePaths tree).Nodup)
    (e : WalkEntry) (he : e ∈ tree) :
    tree.find? (fun x => x.path = e.path) = some e := by
  induction tree with
  | nil => simp at he
  | cons e0 t ih =>
      have hnd : e0.path ∉ treePaths t ∧ (treePaths t).Nodup := by
        simpa [treePaths] using h
      rcases List.mem_cons.mp he with he0 | he0
      · subst he0
        simp [List.find?_cons]
      · have hne : ¬ (e0.path = e.path) := by
          intro hp
          have hmem : e.path ∈ treePaths t := by
            simp only [treePaths, List.mem_map]
            exact ⟨e, he0, rfl⟩
          rw [hp] at hnd
          exact hnd.1 hmem
        rw [List.find?_cons]
        have hd : (decide (e0.path = e.path)) = false := decide_eq_false hne
        rw [hd]
        exact ih hnd.2 he0

/-! ### Exact-duplicate group lemmas -/

theorem mem_exact_dup_groups (tree : List WalkEntry) (g : List String) :
    g ∈ exact_dup_groups tree ↔ ∃ k, (k, g) ∈ hashes tree ∧ 1 < g.length := by
  simp only [exact_dup_groups, List.mem_map, List.mem_filter]
  constructor
  · rintro ⟨kv, ⟨hmem, hlen⟩, rfl⟩
    exact ⟨kv.1, hmem, by simpa using hlen⟩
  · rintro ⟨k, hmem, hlen⟩
    exact ⟨(k, g), ⟨hmem, by simpa using hlen⟩, rfl⟩

theorem two_le_length_of_two_mem {α : Type} (l : List α) (a b : α)
    (hne : a ≠ b) (ha : a ∈ l) (hb : b ∈ l) : 2 ≤ l.length := by
  cases l with
  | nil => simp at ha
  | cons x t =>
      cases t with
      | nil =>
          simp at ha hb
          subst ha; subst hb
          exact absurd rfl hne
      | cons y t2 => simp

theorem pairwise_disjoint_of_count_le_one {α : Type} [DecidableEq α]
    (L : List (List α)) (h : ∀ q, L.flatten.count q ≤ 1) :
    List.Pairwise (fun g1 g2 => ∀ q ∈ g1, q ∉ g2) L := by
  induction L with
  | nil => exact List.Pairwise.nil
  | cons g L ih =>
      refine List.Pairwise.cons ?_ (ih ?_)
      · intro g2 hg2 q hq hq2
        have h1 : 0 < g.count q := List.count_pos_iff.mpr hq
        have h2 : 0 < L.flatten.count q :=
          List.count_pos_iff.mpr (List.mem_flatten.mpr ⟨g2, hg2, hq2⟩)
        have h3 := h q
        rw [List.flatten_cons, List.count_append] at h3
        omega
      · intro q
        have h3 := h q
        rw [List.flatten_cons, List.count_append] at h3
        omega

theorem filter_flatten_count_le (m : List (String × List String))
    (f : (String × List String) → Bool) (q : String) :
    (((m.filter f).map (fun kv => kv.2)).flatten.count q) ≤ (bucketPaths m).count q := by
  induction m with
  | nil => simp [bucketPaths]
  | cons kv rest ih =>
      have hb : bucketPaths (kv :: rest) = kv.2 ++ bucketPaths rest := by
        simp [bucketPaths]
      by_cases hf : f kv
      · rw [List.filter_cons, if_pos hf, hb]
        simp only [List.map_cons, List.flatten_cons, List.count_append]
        omega
      · rw [List.filter_cons, if_neg hf, hb]
        simp only [List.count_append]
        omega

theorem exact_dup_groups_count_le_one (tree : List WalkEntry)
    (hnd : (treePaths tree).Nodup) (q : String) :
    (exact_dup_groups tree).flatten.count q ≤ 1 := by
  have h1 : (exact_dup_groups tree).flatten.count q ≤ (bucketPaths (hashes tree)).count q :=
    filter_flatten_count_le (hashes tree) (fun kv => 1 < kv.2.length) q
  rw [hashes_count] at h1
  exact le_trans h1 (count_readable_le_one tree hnd q)

/-- Claim C2: for readable files of one run, two distinct files land in the
same exact-duplicate group iff their content digests are equal; every emitted
group has at least two members; and the groups are pairwise disjoint. -/
theorem claim_c2_exact_group_membership (tree : List WalkEntry)
    (hnd : (treePaths tree).Nodup) (e1 e2 : WalkEntry)
    (h1 : e1 ∈ tree) (h2 : e2 ∈ tree)
    (hr1 : e1.readable = true) (hr2 : e2.readable = true)
    (hne : e1.path ≠ e2.path) :
    ((∃ g ∈ exact_dup_groups tree, e1.path ∈ g ∧ e2.path ∈ g) ↔ e1.digest = e2.digest) ∧
    (∀ g ∈ exact_dup_groups tree, 2 ≤ g.length) ∧
    List.Pairwise (fun g1 g2 => ∀ q ∈ g1, q ∉ g2) (exact_dup_groups tree) := by
  refine ⟨⟨?_, ?_⟩, ?_, ?_⟩
  · rintro ⟨g, hg, hp1, hp2⟩
    obtain ⟨k, hmem, _⟩ := (mem_exact_dup_groups tree g).mp hg
    obtain ⟨f1, hf1, hfr1, hfp1, hfd1⟩ := hashes_sound tree k g hmem e1.path hp1
    obtain ⟨f2, hf2, hfr2, hfp2, hfd2⟩ := hashes_sound tree k g hmem e2.path hp2
    have hq1 : f1 = e1 := path_inj tree hnd f1 e1 hf1 h1 hfp1
    have hq2 : f2 = e2 := path_inj tree hnd f2 e2 hf2 h2 hfp2
    subst hq1; subst hq2
    rw [hfd1, hfd2]
  · intro hd
    obtain ⟨ps1, hm1, hp1⟩ := hashes_complete tree e1 h1 hr1
    obtain ⟨ps2, hm2, hp2⟩ := hashes_complete tree e2 h2 hr2
    rw [hd] at hm1
    have hps : ps1 = ps2 :=
      assoc_unique (hashes tree) (hashes_keys_nodup tree) e2.digest ps1 ps2 hm1 hm2
    subst hps
    have hlen : 2 ≤ ps1.length := two_le_length_of_two_mem ps1 e1.path e2.path hne hp1 hp2
    refine ⟨ps1, (mem_exact_dup_groups tree ps1).mpr ⟨e2.digest, hm1, by omega⟩, hp1, hp2⟩
  · intro g hg
    obtain ⟨k, _, hlen⟩ := (mem_exact_dup_groups tree g).mp hg
    omega
  · exact pairwise_disjoint_of_count_le_one _ (exact_dup_groups_count_le_one tree hnd)

/-! ### Mapping coverage lemmas -/

theorem groupsGo_origs_count (tree : List WalkEntry) (gs : List (List String)) :
    ∀ s q, (origsOf (groupsGo tree s gs).mapping).count q
      = (origsOf s.mapping).count q + gs.flatten.count q := by
  induction gs with
  | nil => intro s q; simp [groupsGo]
  | cons g gs ih =>
      intro s q
      show (origsOf (groupsGo tree (groupStep tree s g) gs).mapping).count q = _
      rw [ih]
      have hstep : origsOf (groupStep tree s g).mapping = origsOf s.mapping ++ g := by
        simp [groupStep, origsOf]
      rw [hstep, List.count_append, List.flatten_cons, List.count_append]
      omega

theorem groupsGo_processed (tree : List WalkEntry) (gs : List (List String)) :
    ∀ s, (groupsGo tree s gs).processed
      = s.processed ++ gs.map (fun g => (digestOfPath tree (g.headD "")).getD "") := by
  induction gs with
  | nil => intro s; simp [groupsGo]
  | cons g gs ih =>
      intro s
      show (groupsGo tree (groupStep tree s g) gs).processed = _
      rw [ih]
      simp [groupStep]

theorem bucket_head_digest (tree : List WalkEntry) (hnd : (treePaths tree).Nodup)
    (k : String) (ps : List String) (hm : (k, ps) ∈ hashes tree) (hne : ps ≠ []) :
    (digestOfPath tree (ps.headD "")).getD "" = k := by
  have hhead : ps.headD "" ∈ ps := by
    cases ps with
    | nil => exact absurd rfl hne
    | cons a t => exact List.mem_cons_self _ _
  obtain ⟨e, he, hr, hp, hdig⟩ := hashes_sound tree k ps hm (ps.headD "") hhead
  have hfind : tree.find? (fun x => x.path = ps.headD "") = some e := by
    rw [← hp]
    exact find?_path_eq tree hnd e he
  unfold digestOfPath
  rw [hfind]
  simp [hdig]

theorem singleton_key_not_group_hash (tree : List WalkEntry)
    (hnd : (treePaths tree).Nodup) (kv : String × List String)
    (hkv : kv ∈ hashes tree) (hlen : kv.2.length = 1) :
    kv.1 ∉ (exact_dup_groups tree).map
      (fun g => (digestOfPath tree (g.headD "")).getD "") := by
  intro hmem
  obtain ⟨g, hg, hgh⟩ := List.mem_map.mp hmem
  obtain ⟨k2, hk2, hglen⟩ := (mem_exact_dup_groups tree g).mp hg
  have hgne : g ≠ [] := by
    intro h
    rw [h] at hglen
    simp at hglen
  rw [bucket_head_digest tree hnd k2 g hk2 hgne] at hgh
  subst hgh
  have : kv.2 = g :=
    assoc_unique (hashes tree) (hashes_keys_nodup tree) kv.1 kv.2 g
      (by rw [← Prod.mk.eta (p := kv)] at hkv; exact hkv) hk2
  rw [this] at hlen
  omega

theorem uniquesGo_origs_count (kvs : List (String × List String)) :
    ∀ s q, (assocKeys kvs).Nodup →
      (∀ kv ∈ kvs, kv.2.length = 1 → kv.1 ∉ s.processed) →
      (origsOf (uniquesGo s kvs).mapping).count q
        = (origsOf s.mapping).count q
          + ((kvs.filter (fun kv => kv.2.length = 1)).map (fun kv => kv.2)).flatten.count q := by
  induction kvs with
  | nil => intro s q _ _; simp [uniquesGo]
  | cons kv kvs ih =>
      intro s q hkeys hproc
      have hkeys' : (assocKeys kvs).Nodup := by
        simp only [assocKeys, List.map_cons] at hkeys
        exact hkeys.of_cons
      have hkey1 : kv.1 ∉ assocKeys kvs := by
        simp only [assocKeys, List.map_cons] at hkeys
        exact (List.nodup_cons.mp hkeys).1
      show (origsOf (uniquesGo (uniqueStep s kv) kvs).mapping).count q = _
      by_cases hc : kv.2.length = 1
      · have hnp : kv.1 ∉ s.processed := hproc kv (List.mem_cons_self _ _) hc
        have hcond : kv.2.length = 1 ∧ kv.1 ∉ s.processed := ⟨hc, hnp⟩
        have hstep : uniqueStep s kv
            = ⟨s.counter + 1, s.processed ++ [kv.1],
               s.mapping ++ [⟨s.counter, pad5 s.counter ++ extOf (kv.2.headD ""),
                 kv.2.headD "", [kv.2.headD ""]⟩], s.dupIndex⟩ := by
          simp [uniqueStep, hcond]
        have hproc' : ∀ kv' ∈ kvs, kv'.2.length = 1 → kv'.1 ∉ (uniqueStep s kv).processed := by
          intro kv' hkv' hlen'
          rw [hstep]
          simp only [List.mem_append, List.mem_singleton]
          rintro (h | h)
          · exact hproc kv' (List.mem_cons_of_mem _ hkv') hlen' h
          · apply hkey1
            rw [← h]
            exact List.mem_map_of_mem (fun kv => kv.1) hkv'
        rw [ih (uniqueStep s kv) q hkeys' hproc']
        have horigs : origsOf (uniqueStep s kv).mapping
            = origsOf s.mapping ++ [kv.2.headD ""] := by
          rw [hstep]
          simp [origsOf]
        have hkv2 : kv.2 = [kv.2.headD ""] := by
          cases h2 : kv.2 with
          | nil => rw [h2] at hc; simp at hc
          | cons a t =>
              rw [h2] at hc
              simp at hc
              simp [hc]
        rw [horigs, List.count_append, List.filter_cons, if_pos (by simpa using hc)]
        simp only [List.map_cons, List.flatten_cons, List.count_append]
        rw [← hkv2]
        omega
      · have hstep : uniqueStep s kv = s := by
          simp only [uniqueStep]
          rw [if_neg]
          rintro ⟨h1, _⟩
          exact hc h1
        have hproc' : ∀ kv' ∈ kvs, kv'.2.length = 1 → kv'.1 ∉ (uniqueStep s kv).processed := by
          intro kv' hkv' hlen'
          rw [hstep]
          exact hproc kv' (List.mem_cons_of_mem _ hkv') hlen'
        rw [ih (uniqueStep s kv) q hkeys' hproc', hstep, List.filter_cons,
          if_neg (by simpa using hc)]

theorem bucket_split_count (m : List (String × List String))
    (hne : ∀ kv ∈ m, kv.2 ≠ []) (q : String) :
    ((m.filter (fun kv => 1 < kv.2.length)).map (fun kv => kv.2)).flatten.count q
      + ((m.filter (fun kv => kv.2.length = 1)).map (fun kv => kv.2)).flatten.count q
      = (bucketPaths m).count q := by
  induction m with
  | nil => simp [bucketPaths]
  | cons kv rest ih =>
      have hkv := hne kv (List.mem_cons_self _ _)
      have ih' := ih (fun kv' h' => hne kv' (List.mem_cons_of_mem _ h'))
      have hb : (bucketPaths (kv :: rest)).count q
          = kv.2.count q + (bucketPaths rest).count q := by
        simp [bucketPaths, List.count_append]
      have hlen : 1 ≤ kv.2.length := by
        cases h2 : kv.2 with
        | nil => exact absurd h2 hkv
        | cons a t => simp
      by_cases hone : kv.2.length = 1
      · have hnot : ¬ (1 < kv.2.length) := by omega
        rw [List.filter_cons, if_neg (by simpa using hnot), List.filter_cons,
          if_pos (by simpa using hone), hb]
        simp only [List.map_cons, List.flatten_cons, List.count_append]
        omega
      · have hgt : 1 < kv.2.length := by omega
        rw [List.filter_cons, if_pos (by simpa using hgt), List.filter_cons,
          if_neg (by simpa using hone), hb]
        simp only [List.map_cons, List.flatten_cons, List.count_append]
        omega

theorem file_mapping_origs_count (tree : List WalkEntry)
    (hnd : (treePaths tree).Nodup) (q : String) :
    (origsOf (file_mapping tree)).count q = (readablePaths tree).count q := by
  have hS1 := groupsGo_origs_count tree (exact_dup_groups tree) ⟨1, [], [], []⟩ q
  have hproc := groupsGo_processed tree (exact_dup_groups tree) ⟨1, [], [], []⟩
  have hsingle : ∀ kv ∈ hashes tree, kv.2.length = 1 →
      kv.1 ∉ (groupsGo tree ⟨1, [], [], []⟩ (exact_dup_groups tree)).processed := by
    intro kv hkv hlen
    rw [hproc]
    intro hmem
    rcases List.mem_append.mp hmem with h | h
    · simp at h
    · exact singleton_key_not_group_hash tree hnd kv hkv hlen h
  have hU := uniquesGo_origs_count (hashes tree)
    (groupsGo tree ⟨1, [], [], []⟩ (exact_dup_groups tree)) q
    (hashes_keys_nodup tree) hsingle
  have emap : origsOf (file_mapping tree)
      = origsOf (uniquesGo (groupsGo tree ⟨1, [], [], []⟩ (exact_dup_groups tree))
          (hashes tree)).mapping := rfl
  rw [emap, hU, hS1]
  have hzero : origsOf (⟨1, [], [], []⟩ : ConsState).mapping = [] := rfl
  rw [hzero]
  have hsplit := bucket_split_count (hashes tree) (hashes_ne_nil tree) q
  have hcount := hashes_count tree q
  have hflat : ((hashes tree).filter
        (fun kv : String × List String => 1 < kv.2.length)).map
        (fun kv : String × List String => kv.2)
      = exact_dup_groups tree := rfl
  rw [hflat] at hsplit
  simp only [List.count_nil]
  omega

theorem countP_contains_eq_zero {α : Type} [DecidableEq α] (L : List (List α)) (q : α)
    (h : L.flatten.count q = 0) : L.countP (fun l => l.contains q) = 0 := by
  rw [List.countP_eq_zero]
  intro l hl
  have hq : q ∉ l := by
    intro hq
    have : q ∈ L.flatten := List.mem_flatten.mpr ⟨l, hl, hq⟩
    rw [List.count_eq_zero] at h
    exact h this
  simpa using hq

theorem countP_contains_eq_one {α : Type} [DecidableEq α] (L : List (List α)) (q : α)
    (h : L.flatten.count q = 1) : L.countP (fun l => l.contains q) = 1 := by
  induction L with
  | nil => simp at h
  | cons l L ih =>
      rw [List.flatten_cons, List.count_append] at h
      rw [List.countP_cons]
      by_cases hq : q ∈ l
      · have h1 : 0 < l.count q := List.count_pos_iff.mpr hq
        have h2 : L.flatten.count q = 0 := by omega
        rw [countP_contains_eq_zero L q h2]
        simp [hq]
      · have h1 : l.count q = 0 := List.count_eq_zero.mpr hq
        have h2 : L.flatten.count q = 1 := by omega
        rw [ih h2]
        simp [hq]

theorem groupsGo_mapping_entries (tree : List WalkEntry) (gs : List (List String)) :
    ∀ s en, en ∈ (groupsGo tree s gs).mapping →
      en ∈ s.mapping ∨ ∃ g ∈ gs, en.origs = g ∧ en.src = g.headD "" := by
  induction gs with
  | nil => intro s en h; exact Or.inl h
  | cons g gs ih =>
      intro s en h
      rcases ih (groupStep tree s g) en h with h1 | h1
      · have hmap : (groupStep tree s g).mapping
            = s.mapping ++ [⟨s.counter, pad5 s.counter ++ extOf (g.headD ""),
                g.headD "", g⟩] := rfl
        rw [hmap] at h1
        rcases List.mem_append.mp h1 with h2 | h2
        · exact Or.inl h2
        · refine Or.inr ⟨g, List.mem_cons_self _ _, ?_, ?_⟩
          · rw [List.mem_singleton.mp h2]
          · rw [List.mem_singleton.mp h2]
      · obtain ⟨g2, hg2, h2⟩ := h1
        exact Or.inr ⟨g2, List.mem_cons_of_mem _ hg2, h2⟩

theorem uniquesGo_mapping_entries (kvs : List (String × List String)) :
    ∀ s en, en ∈ (uniquesGo s kvs).mapping →
      en ∈ s.mapping ∨ ∃ kv ∈ kvs, kv.2.length = 1 ∧ en.origs = kv.2 ∧
        en.src = kv.2.headD "" := by
  induction kvs with
  | nil => intro s en h; exact Or.inl h
  | cons kv kvs ih =>
      intro s en h
      rcases ih (uniqueStep s kv) en h with h1 | h1
      · by_cases hc : kv.2.length = 1 ∧ kv.1 ∉ s.processed
        · have hmap : (uniqueStep s kv).mapping
              = s.mapping ++ [⟨s.counter, pad5 s.counter ++ extOf (kv.2.headD ""),
                  kv.2.headD "", [kv.2.headD ""]⟩] := by
            simp [uniqueStep, hc]
          rw [hmap] at h1
          rcases List.mem_append.mp h1 with h2 | h2
          · exact Or.inl h2
          · have hkv2 : kv.2 = [kv.2.headD ""] := by
              rcases h3 : kv.2 with _ | ⟨a, t⟩
              · rw [h3] at hc; simp at hc
              · have := hc.1
                rw [h3] at this
                simp at this
                simp [this]
            refine Or.inr ⟨kv, List.mem_cons_self _ _, hc.1, ?_, ?_⟩
            · rw [List.mem_singleton.mp h2, ← hkv2]
            · rw [List.mem_singleton.mp h2]
        · have hmap : uniqueStep s kv = s := by simp [uniqueStep, hc]
          rw [hmap] at h1
          exact Or.inl h1
      · obtain ⟨kv2, hkv2, h2⟩ := h1
        exact Or.inr ⟨kv2, List.mem_cons_of_mem _ hkv2, h2⟩

theorem file_mapping_entries (tree : List WalkEntry) (en : ConsEntry)
    (h : en ∈ file_mapping tree) :
    (en.origs ∈ exact_dup_groups tree ∧ en.src = en.origs.headD "") ∨
    (∃ kv ∈ hashes tree, kv.2.length = 1 ∧ en.origs = kv.2 ∧
      en.src = en.origs.headD "") := by
  have h0 : en ∈ (uniquesGo (groupsGo tree ⟨1, [], [], []⟩ (exact_dup_groups tree))
      (hashes tree)).mapping := h
  rcases uniquesGo_mapping_entries (hashes tree) _ en h0 with h1 | h1
  · rcases groupsGo_mapping_entries tree (exact_dup_groups tree) _ en h1 with h2 | h2
    · simp at h2
    · obtain ⟨g, hg, hor, hsrc⟩ := h2
      exact Or.inl ⟨hor ▸ hg, by rw [hor, hsrc]⟩
  · obtain ⟨kv, hkv, hlen, hor, hsrc⟩ := h1
    exact Or.inr ⟨kv, hkv, hlen, hor, by rw [hor, hsrc]⟩

/-- Claim C1: every file the run successfully reads appears in exactly one
`file_mapping` entry's original-path list — either as the sole original of a
singleton unique file, or inside exactly one exact-duplicate group's path
list whose first-seen member is the path that was copied forward. -/
theorem claim_c1_mapping_partition (tree : List WalkEntry)
    (hnd : (treePaths tree).Nodup) (e : WalkEntry) (he : e ∈ tree)
    (hr : e.readable = true) :
    (file_mapping tree).countP (fun en => en.origs.contains e.path) = 1 ∧
    ∃ en ∈ file_mapping tree, e.path ∈ en.origs ∧
      (en.origs = [e.path] ∨
       (en.origs ∈ exact_dup_groups tree ∧ 2 ≤ en.origs.length ∧
        en.src = en.origs.headD "")) := by
  have hcount : (origsOf (file_mapping tree)).count e.path = 1 := by
    rw [file_mapping_origs_count tree hnd e.path]
    exact count_readable_eq_one tree hnd e he hr
  have hcountP : ((file_mapping tree).map (fun en => en.origs)).countP
      (fun l => l.contains e.path) = 1 :=
    countP_contains_eq_one _ e.path hcount
  rw [List.countP_map] at hcountP
  refine ⟨hcountP, ?_⟩
  have hpos : 0 < (file_mapping tree).countP
      (fun en => ((fun l : List String => l.contains e.path) ∘ fun en => en.origs) en) := by
    rw [hcountP]
    omega
  obtain ⟨en, hen, hp⟩ := List.countP_pos_iff.mp hpos
  have hmem : e.path ∈ en.origs := by simpa using hp
  refine ⟨en, hen, hmem, ?_⟩
  rcases file_mapping_entries tree en hen with h1 | h1
  · obtain ⟨hg, hsrc⟩ := h1
    obtain ⟨k, _, hlen⟩ := (mem_exact_dup_groups tree en.origs).mp hg
    exact Or.inr ⟨hg, by omega, hsrc⟩
  · obtain ⟨kv, _, hlen, hor, _⟩ := h1
    left
    rcases h2 : en.origs with _ | ⟨a, t⟩
    · rw [h2] at hmem; simp at hmem
    · rw [hor] at h2
      rw [h2] at hlen
      simp at hlen
      subst hlen
      rw [hor, h2] at hmem
      simp at hmem
      rw [hmem]

/-! ### Clusterer lemmas -/

theorem scanAdd_checked (h1 : List Bool) (l : List (List Bool × String)) :
    ∀ c, (scanAdd h1 l c).2 = c ++ (scanAdd h1 l c).1 := by
  induction l with
  | nil => intro c; simp [scanAdd]
  | cons hp rest ih =>
      intro c
      obtain ⟨h2, p2⟩ := hp
      by_cases hm : p2 ∈ c
      · simp only [scanAdd, if_pos hm]
        exact ih c
      · by_cases hd : hamming h1 h2 ≤ threshold
        · simp only [scanAdd, if_neg hm, if_pos hd]
          rw [ih (c ++ [p2])]
          simp
        · simp only [scanAdd, if_neg hm, if_neg hd]
          exact ih c

theorem scanAdd_mem_near (h1 : List Bool) (l : List (List Bool × String)) :
    ∀ c q, q ∈ (scanAdd h1 l c).1 →
      ∃ h2, (h2, q) ∈ l ∧ hamming h1 h2 ≤ threshold := by
  induction l with
  | nil => intro c q hq; simp [scanAdd] at hq
  | cons hp rest ih =>
      intro c q hq
      obtain ⟨h2, p2⟩ := hp
      by_cases hm : p2 ∈ c
      · simp only [scanAdd, if_pos hm] at hq
        obtain ⟨h3, hm3, hd3⟩ := ih c q hq
        exact ⟨h3, List.mem_cons_of_mem _ hm3, hd3⟩
      · by_cases hd : hamming h1 h2 ≤ threshold
        · simp only [scanAdd, if_neg hm, if_pos hd] at hq
          rcases List.mem_cons.mp hq with hq1 | hq1
          · subst hq1
            exact ⟨h2, List.mem_cons_self _ _, hd⟩
          · obtain ⟨h3, hm3, hd3⟩ := ih (c ++ [p2]) q hq1
            exact ⟨h3, List.mem_cons_of_mem _ hm3, hd3⟩
        · simp only [scanAdd, if_neg hm, if_neg hd] at hq
          obtain ⟨h3, hm3, hd3⟩ := ih c q hq
          exact ⟨h3, List.mem_cons_of_mem _ hm3, hd3⟩

theorem scanAdd_not_mem (h1 : List Bool) (l : List (List Bool × String)) :
    ∀ c q, q ∈ (scanAdd h1 l c).1 → q ∉ c := by
  induction l with
  | nil => intro c q hq; simp [scanAdd] at hq
  | cons hp rest ih =>
      intro c q hq
      obtain ⟨h2, p2⟩ := hp
      by_cases hm : p2 ∈ c
      · simp only [scanAdd, if_pos hm] at hq
        exact ih c q hq
      · by_cases hd : hamming h1 h2 ≤ threshold
        · simp only [scanAdd, if_neg hm, if_pos hd] at hq
          rcases List.mem_cons.mp hq with hq1 | hq1
          · subst hq1; exact hm
          · intro hc
            exact ih (c ++ [p2]) q hq1 (List.mem_append_left _ hc)
        · simp only [scanAdd, if_neg hm, if_neg hd] at hq
          exact ih c q hq

theorem clusterGo_groups_sub (l : List (List Bool × String)) :
    ∀ c g q, g ∈ (clusterGo l c).1 → q ∈ g → q ∈ pathsOf l := by
  induction l with
  | nil => intro c g q hg; simp [clusterGo] at hg
  | cons hp rest ih =>
      intro c g q hg hq
      obtain ⟨h1, p1⟩ := hp
      have hpaths : pathsOf ((h1, p1) :: rest) = p1 :: pathsOf rest := by simp [pathsOf]
      rw [hpaths]
      by_cases hm : p1 ∈ c
      · simp only [clusterGo, if_pos hm] at hg
        exact List.mem_cons_of_mem _ (ih c g q hg hq)
      · by_cases he : (scanAdd h1 rest c).1 = []
        · simp only [clusterGo, if_neg hm, if_pos he] at hg
          exact List.mem_cons_of_mem _ (ih _ g q hg hq)
        · simp only [clusterGo, if_neg hm, if_neg he] at hg
          rcases List.mem_cons.mp hg with hg1 | hg1
          · subst hg1
            rcases List.mem_cons.mp hq with hq1 | hq1
            · exact List.mem_cons.mpr (Or.inl hq1)
            · obtain ⟨h2, hm2, _⟩ := scanAdd_mem_near h1 rest c q hq1
              refine List.mem_cons_of_mem _ ?_
              simp only [pathsOf, List.mem_map]
              exact ⟨(h2, q), hm2, rfl⟩
          · exact List.mem_cons_of_mem _ (ih _ g q hg1 hq)

theorem clusterGo_groups_avoid (l : List (List Bool × String)) :
    ∀ c g q, g ∈ (clusterGo l c).1 → q ∈ g → q ∉ c := by
  induction l with
  | nil => intro c g q hg; simp [clusterGo] at hg
  | cons hp rest ih =>
      intro c g q hg hq hc
      obtain ⟨h1, p1⟩ := hp
      by_cases hm : p1 ∈ c
      · simp only [clusterGo, if_pos hm] at hg
        exact ih c g q hg hq hc
      · by_cases he : (scanAdd h1 rest c).1 = []
        · simp only [clusterGo, if_neg hm, if_pos he] at hg
          have hsub : c ⊆ (scanAdd h1 rest c).2 := by
            rw [scanAdd_checked]
            exact fun x hx => List.mem_append_left _ hx
          exact ih _ g q hg hq (hsub hc)
        · simp only [clusterGo, if_neg hm, if_neg he] at hg
          rcases List.mem_cons.mp hg with hg1 | hg1
          · subst hg1
            rcases List.mem_cons.mp hq with hq1 | hq1
            · subst hq1; exact hm hc
            · exact scanAdd_not_mem h1 rest c q hq1 hc
          · have hsub : c ⊆ (scanAdd h1 rest c).2 ++ [p1] := by
              rw [scanAdd_checked]
              intro x hx
              exact List.mem_append_left _ (List.mem_append_left _ hx)
            exact ih _ g q hg1 hq (hsub hc)

theorem clusterGo_groups_two_le (l : List (List Bool × String)) :
    ∀ c g, g ∈ (clusterGo l c).1 → 2 ≤ g.length := by
  induction l with
  | nil => intro c g hg; simp [clusterGo] at hg
  | cons hp rest ih =>
      intro c g hg
      obtain ⟨h1, p1⟩ := hp
      by_cases hm : p1 ∈ c
      · simp only [clusterGo, if_pos hm] at hg
        exact ih c g hg
      · by_cases he : (scanAdd h1 rest c).1 = []
        · simp only [clusterGo, if_neg hm, if_pos he] at hg
          exact ih _ g hg
        · simp only [clusterGo, if_neg hm, if_neg he] at hg
          rcases List.mem_cons.mp hg with hg1 | hg1
          · subst hg1
            rcases h2 : (scanAdd h1 rest c).1 with _ | ⟨a, t⟩
            · exact absurd h2 he
            · simp [h2]
          · exact ih _ g hg1

theorem clusterGo_pairwise (l : List (List Bool × String)) :
    ∀ c, List.Pairwise (fun g1 g2 => ∀ q ∈ g1, q ∉ g2) (clusterGo l c).1 := by
  induction l with
  | nil => intro c; simp [clusterGo]
  | cons hp rest ih =>
      intro c
      obtain ⟨h1, p1⟩ := hp
      by_cases hm : p1 ∈ c
      · simp only [clusterGo, if_pos hm]
        exact ih c
      · by_cases he : (scanAdd h1 rest c).1 = []
        · simp only [clusterGo, if_neg hm, if_pos he]
          exact ih _
        · simp only [clusterGo, if_neg hm, if_neg he]
          refine List.Pairwise.cons ?_ (ih _)
          intro g2 hg2 q hq hq2
          have havoid := clusterGo_groups_avoid rest ((scanAdd h1 rest c).2 ++ [p1]) g2 q hg2 hq2
          rcases List.mem_cons.mp hq with hq1 | hq1
          · subst hq1
            exact havoid (List.mem_append_right _ (List.mem_singleton.mpr rfl))
          · refine havoid (List.mem_append_left _ ?_)
            rw [scanAdd_checked]
            exact List.mem_append_right _ hq1

theorem clusterGo_near_seed (l : List (List Bool × String)) :
    ∀ c g, g ∈ (clusterGo l c).1 →
      ∃ p1 adds h1, g = p1 :: adds ∧ (h1, p1) ∈ l ∧
        ∀ q ∈ adds, ∃ h2, (h2, q) ∈ l ∧ hamming h1 h2 ≤ threshold := by
  induction l with
  | nil => intro c g hg; simp [clusterGo] at hg
  | cons hp rest ih =>
      intro c g hg
      obtain ⟨h1, p1⟩ := hp
      by_cases hm : p1 ∈ c
      · simp only [clusterGo, if_pos hm] at hg
        obtain ⟨q1, adds, hh, hgq, hmem, hnear⟩ := ih c g hg
        exact ⟨q1, adds, hh, hgq, List.mem_cons_of_mem _ hmem,
          fun q hq => (hnear q hq).elim
            (fun h2 h3 => ⟨h2, List.mem_cons_of_mem _ h3.1, h3.2⟩)⟩
      · by_cases he : (scanAdd h1 rest c).1 = []
        · simp only [clusterGo, if_neg hm, if_pos he] at hg
          obtain ⟨q1, adds, hh, hgq, hmem, hnear⟩ := ih _ g hg
          exact ⟨q1, adds, hh, hgq, List.mem_cons_of_mem _ hmem,
            fun q hq => (hnear q hq).elim
              (fun h2 h3 => ⟨h2, List.mem_cons_of_mem _ h3.1, h3.2⟩)⟩
        · simp only [clusterGo, if_neg hm, if_neg he] at hg
          rcases List.mem_cons.mp hg with hg1 | hg1
          · refine ⟨p1, (scanAdd h1 rest c).1, h1, hg1, List.mem_cons_self _ _, ?_⟩
            intro q hq
            obtain ⟨h2, hm2, hd2⟩ := scanAdd_mem_near h1 rest c q hq
            exact ⟨h2, List.mem_cons_of_mem _ hm2, hd2⟩
          · obtain ⟨q1, adds, hh, hgq, hmem, hnear⟩ := ih _ g hg1
            exact ⟨q1, adds, hh, hgq, List.mem_cons_of_mem _ hmem,
              fun q hq => (hnear q hq).elim
                (fun h2 h3 => ⟨h2, List.mem_cons_of_mem _ h3.1, h3.2⟩)⟩

theorem clusterGo_ds_avoid (l : List (List Bool × String)) :
    ∀ c p, p ∈ (clusterGo l c).2 → p ∉ c := by
  induction l with
  | nil => intro c p hp; simp [clusterGo] at hp
  | cons hp0 rest ih =>
      intro c p hp hc
      obtain ⟨h1, p1⟩ := hp0
      by_cases hm : p1 ∈ c
      · simp only [clusterGo, if_pos hm] at hp
        exact ih c p hp hc
      · by_cases he : (scanAdd h1 rest c).1 = []
        · simp only [clusterGo, if_neg hm, if_pos he] at hp
          rcases List.mem_cons.mp hp with hp1 | hp1
          · subst hp1; exact hm hc
          · have hsub : c ⊆ (scanAdd h1 rest c).2 := by
              rw [scanAdd_checked]
              exact fun x hx => List.mem_append_left _ hx
            exact ih _ p hp1 (hsub hc)
        · simp only [clusterGo, if_neg hm, if_neg he] at hp
          have hsub : c ⊆ (scanAdd h1 rest c).2 ++ [p1] := by
            rw [scanAdd_checked]
            intro x hx
            exact List.mem_append_left _ (List.mem_append_left _ hx)
          exact ih _ p hp (hsub hc)

theorem clusterGo_ds_not_in_groups (l : List (List Bool × String)) :
    ∀ c, (pathsOf l).Nodup →
      ∀ p ∈ (clusterGo l c).2, ∀ g ∈ (clusterGo l c).1, p ∉ g := by
  induction l with
  | nil => intro c _ p hp; simp [clusterGo] at hp
  | cons hp0 rest ih =>
      intro c hnd p hp g hg hpg
      obtain ⟨h1, p1⟩ := hp0
      have hnd2 : (pathsOf rest).Nodup ∧ p1 ∉ pathsOf rest := by
        have : pathsOf ((h1, p1) :: rest) = p1 :: pathsOf rest := by simp [pathsOf]
        rw [this] at hnd
        exact ⟨hnd.of_cons, (List.nodup_cons.mp hnd).1⟩
      by_cases hm : p1 ∈ c
      · simp only [clusterGo, if_pos hm] at hp hg
        exact ih c hnd2.1 p hp g hg hpg
      · by_cases he : (scanAdd h1 rest c).1 = []
        · simp only [clusterGo, if_neg hm, if_pos he] at hp hg
          rcases List.mem_cons.mp hp with hp1 | hp1
          · subst hp1
            exact hnd2.2 (clusterGo_groups_sub rest _ g p hg hpg)
          · exact ih _ hnd2.1 p hp1 g hg hpg
        · simp only [clusterGo, if_neg hm, if_neg he] at hp hg
          rcases List.mem_cons.mp hg with hg1 | hg1
          · subst hg1
            have havoid := clusterGo_ds_avoid rest ((scanAdd h1 rest c).2 ++ [p1]) p hp
            rcases List.mem_cons.mp hpg with hq1 | hq1
            · subst hq1
              exact havoid (List.mem_append_right _ (List.mem_singleton.mpr rfl))
            · refine havoid (List.mem_append_left _ ?_)
              rw [scanAdd_checked]
              exact List.mem_append_right _ hq1
          · exact ih _ hnd2.1 p hp g hg1 hpg

theorem decodeFp_readable (e : WalkEntry) (h : decodeFp e ≠ none) : e.readable = true := by
  by_cases hr : e.readable
  · exact hr
  · exact absurd (by simp [decodeFp, hr]) h

theorem mem_pathsOf_imageHashesGo (ex : List String) (t : List WalkEntry) :
    ∀ q, q ∈ pathsOf (imageHashesGo ex t) →
      ∃ e ∈ t, e.path = q ∧ q ∉ ex ∧ decodeFp e ≠ none := by
  induction t with
  | nil => intro q hq; simp [imageHashesGo, pathsOf] at hq
  | cons e t ih =>
      intro q hq
      by_cases hm : e.path ∈ ex
      · simp only [imageHashesGo, if_pos hm] at hq
        obtain ⟨e2, he2, h2⟩ := ih q hq
        exact ⟨e2, List.mem_cons_of_mem _ he2, h2⟩
      · cases hd : decodeFp e with
        | some fp =>
            simp only [imageHashesGo, if_neg hm, hd] at hq
            have hq2 : q = e.path ∨ q ∈ pathsOf (imageHashesGo ex t) := by
              simpa [pathsOf] using hq
            rcases hq2 with hq1 | hq1
            · subst hq1
              exact ⟨e, List.mem_cons_self _ _, rfl, hm, by simp [hd]⟩
            · obtain ⟨e2, he2, h2⟩ := ih q hq1
              exact ⟨e2, List.mem_cons_of_mem _ he2, h2⟩
        | none =>
            simp only [imageHashesGo, if_neg hm, hd] at hq
            obtain ⟨e2, he2, h2⟩ := ih q hq
            exact ⟨e2, List.mem_cons_of_mem _ he2, h2⟩

/-- Claim C4: the similarity clusterer (with threshold τ = 5) emits only
groups of size ≥ 2 (singletons are discarded), the emitted groups are
pairwise disjoint, and every group consists of a seed pair from the input
followed by members whose fingerprints are within τ of the seed's
fingerprint. -/
theorem claim_c4_clusterer (l : List (List Bool × String)) :
    threshold = 5 ∧
    (∀ g ∈ simCluster l, 2 ≤ g.length) ∧
    List.Pairwise (fun g1 g2 => ∀ q ∈ g1, q ∉ g2) (simCluster l) ∧
    (∀ g ∈ simCluster l, ∃ p1 adds h1, g = p1 :: adds ∧ (h1, p1) ∈ l ∧
      ∀ q ∈ adds, ∃ h2, (h2, q) ∈ l ∧ hamming h1 h2 ≤ threshold) :=
  ⟨rfl, fun g hg => clusterGo_groups_two_le l [] g hg,
   clusterGo_pairwise l [],
   fun g hg => clusterGo_near_seed l [] g hg⟩

/-- Claim C10: a pair whose own seeded group was discarded as a singleton
never appears in any emitted similar group (candidates for a group are drawn
only from strictly later input positions). -/
theorem claim_c10_discarded_seed_excluded (l : List (List Bool × String))
    (hnd : (pathsOf l).Nodup) (p : String) (hp : p ∈ discardedSeeds l)
    (g : List String) (hg : g ∈ simCluster l) : p ∉ g :=
  clusterGo_ds_not_in_groups l [] hnd p hp g hg

/-- Claim C5: no path that is a member of any exact-duplicate group appears
in any similar group — the second walk skips every path in
`exact_dup_files`. -/
theorem claim_c5_partition_disjoint (tree : List WalkEntry) (g : List String)
    (hg : g ∈ similar_groups tree) (p : String) (hp : p ∈ g)
    (eg : List String) (heg : eg ∈ exact_dup_groups tree) : p ∉ eg := by
  intro hpe
  by_cases him : has_image_files tree
  · rw [similar_groups, if_pos him] at hg
    have hin : p ∈ pathsOf (image_hashes tree) :=
      clusterGo_groups_sub (image_hashes tree) [] g p hg hp
    obtain ⟨e, _, _, hnotex, _⟩ :=
      mem_pathsOf_imageHashesGo (exact_dup_files tree) tree p hin
    exact hnotex (List.mem_flatten.mpr ⟨eg, heg, hpe⟩)
  · rw [similar_groups, if_neg him] at hg
    simp at hg

/-- Claim C9: the similarity phase runs iff some walked file name has a known
image extension (case-insensitively); without such a file no perceptual
fingerprint is computed and no similar group is produced, and with one the
computed fingerprints are exactly the second-walk collection. -/
theorem claim_c9_image_guard (tree : List WalkEntry) :
    (has_image_files tree = true ↔
      ∃ e ∈ tree, strToLower (splitExtBaseStr e.name).2 ∈ image_extensions) ∧
    (has_image_files tree = false →
      run_image_hashes tree = [] ∧ similar_groups tree = []) ∧
    (has_image_files tree = true → run_image_hashes tree = image_hashes tree) := by
  refine ⟨?_, ?_, ?_⟩
  · rw [has_image_files, List.any_eq_true]
    constructor
    · rintro ⟨e, he, hc⟩
      exact ⟨e, he, by simpa using hc⟩
    · rintro ⟨e, he, hc⟩
      exact ⟨e, he, by simpa using hc⟩
  · intro h
    constructor
    · rw [run_image_hashes, if_neg (by simp [h])]
    · rw [similar_groups, if_neg (by simp [h])]
  · intro h
    rw [run_image_hashes, if_pos h]

/-- Claim C6: a file the hashing pass cannot read is skipped and excluded
from every exact-duplicate group, every consolidated mapping entry, and every
similar group; the run still produces a result (the embedding is a total
function), and the returned count equals the number of consolidated entries,
which cover only successfully read files. -/
theorem claim_c6_unreadable_excluded (tree : List WalkEntry)
    (hnd : (treePaths tree).Nodup) (e : WalkEntry) (he : e ∈ tree)
    (hr : e.readable = false) :
    (∀ g ∈ exact_dup_groups tree, e.path ∉ g) ∧
    (∀ en ∈ file_mapping tree, e.path ∉ en.origs) ∧
    (∀ g ∈ similar_groups tree, e.path ∉ g) ∧
    organize_duplicates tree = (file_mapping tree).length := by
  have hzero : (readablePaths tree).count e.path = 0 :=
    count_readable_eq_zero tree hnd e he hr
  refine ⟨?_, ?_, ?_, ?_⟩
  · intro g hg hp
    have h1 : 0 < (exact_dup_groups tree).flatten.count e.path :=
      List.count_pos_iff.mpr (List.mem_flatten.mpr ⟨g, hg, hp⟩)
    have h2 := filter_flatten_count_le (hashes tree) (fun kv => 1 < kv.2.length) e.path
    rw [hashes_count] at h2
    have h3 : (exact_dup_groups tree).flatten.count e.path
        ≤ (readablePaths tree).count e.path := h2
    omega
  · intro en hen hp
    have h1 : 0 < (origsOf (file_mapping tree)).count e.path := by
      refine List.count_pos_iff.mpr ?_
      exact List.mem_flatten.mpr ⟨en.origs, List.mem_map_of_mem (fun en => en.origs) hen, hp⟩
    rw [file_mapping_origs_count tree hnd e.path, hzero] at h1
    omega
  · intro g hg hp
    by_cases him : has_image_files tree
    · rw [similar_groups, if_pos him] at hg
      have hin : e.path ∈ pathsOf (image_hashes tree) :=
        clusterGo_groups_sub (image_hashes tree) [] g e.path hg hp
      obtain ⟨e2, he2, hpath, _, hfp⟩ :=
        mem_pathsOf_imageHashesGo (exact_dup_files tree) tree e.path hin
      have hr2 : e2.readable = true := decodeFp_readable e2 hfp
      have : e2 = e := path_inj tree hnd e2 e he2 he hpath
      subst this
      rw [hr2] at hr
      simp at hr
    · rw [similar_groups, if_neg him] at hg
      simp at hg
  · obtain ⟨k, h1, h2⟩ := runConsolidation_counter_nums tree
    have hlen : (file_mapping tree).length = k := by
      have hl : (nums (file_mapping tree)).length = (List.range' 1 k).length := by
        rw [show nums (file_mapping tree) = List.range' 1 k from h2]
      simpa [nums, List.length_range'] using hl
    show file_counter tree - 1 = _
    rw [show file_counter tree = 1 + k from h1, hlen]
    omega

/-! ### Index-file lemmas -/

theorem groupsGo_dup_shift (tree : List WalkEntry) (gs : List (List String)) :
    ∀ (s : ConsState) (d : List DupBlock),
      groupsGo tree ⟨s.counter, s.processed, s.mapping, d ++ s.dupIndex⟩ gs
        = ⟨(groupsGo tree s gs).counter, (groupsGo tree s gs).processed,
           (groupsGo tree s gs).mapping, d ++ (groupsGo tree s gs).dupIndex⟩ := by
  induction gs with
  | nil => intro s d; simp [groupsGo]
  | cons g gs ih =>
      intro s d
      show groupsGo tree
        (groupStep tree ⟨s.counter, s.processed, s.mapping, d ++ s.dupIndex⟩ g) gs = _
      have hstep : groupStep tree ⟨s.counter, s.processed, s.mapping, d ++ s.dupIndex⟩ g
          = ⟨(groupStep tree s g).counter, (groupStep tree s g).processed,
             (groupStep tree s g).mapping, d ++ (groupStep tree s g).dupIndex⟩ := by
        simp [groupStep, List.append_assoc]
      rw [hstep, ih (groupStep tree s g) d]
      rfl

theorem uniquesGo_dup_shift (kvs : List (String × List String)) :
    ∀ (s : ConsState) (d : List DupBlock),
      uniquesGo ⟨s.counter, s.processed, s.mapping, d ++ s.dupIndex⟩ kvs
        = ⟨(uniquesGo s kvs).counter, (uniquesGo s kvs).processed,
           (uniquesGo s kvs).mapping, d ++ (uniquesGo s kvs).dupIndex⟩ := by
  induction kvs with
  | nil => intro s d; simp [uniquesGo]
  | cons kv kvs ih =>
      intro s d
      show uniquesGo
        (uniqueStep ⟨s.counter, s.processed, s.mapping, d ++ s.dupIndex⟩ kv) kvs = _
      by_cases hc : kv.2.length = 1 ∧ kv.1 ∉ s.processed
      · have hstep : uniqueStep ⟨s.counter, s.processed, s.mapping, d ++ s.dupIndex⟩ kv
            = ⟨(uniqueStep s kv).counter, (uniqueStep s kv).processed,
               (uniqueStep s kv).mapping, d ++ (uniqueStep s kv).dupIndex⟩ := by
          simp [uniqueStep, hc]
        rw [hstep, ih (uniqueStep s kv) d]
        rfl
      · have hstep : uniqueStep ⟨s.counter, s.processed, s.mapping, d ++ s.dupIndex⟩ kv
            = ⟨(uniqueStep s kv).counter, (uniqueStep s kv).processed,
               (uniqueStep s kv).mapping, d ++ (uniqueStep s kv).dupIndex⟩ := by
          simp [uniqueStep, hc]
        rw [hstep, ih (uniqueStep s kv) d]
        rfl

theorem runConsolidation_dup_shift (tree : List WalkEntry) (dupInit : List DupBlock) :
    runConsolidation tree dupInit
      = ⟨(runConsolidation tree []).counter, (runConsolidation tree []).processed,
         (runConsolidation tree []).mapping,
         dupInit ++ (runConsolidation tree []).dupIndex⟩ := by
  show uniquesGo (groupsGo tree ⟨1, [], [], dupInit⟩ (exact_dup_groups tree)) (hashes tree) = _
  have h1 : (⟨1, [], [], dupInit⟩ : ConsState)
      = ⟨(⟨1, [], [], ([] : List DupBlock)⟩ : ConsState).counter,
         (⟨1, [], [], ([] : List DupBlock)⟩ : ConsState).processed,
         (⟨1, [], [], ([] : List DupBlock)⟩ : ConsState).mapping,
         dupInit ++ (⟨1, [], [], ([] : List DupBlock)⟩ : ConsState).dupIndex⟩ := by simp
  rw [h1, groupsGo_dup_shift tree (exact_dup_groups tree) ⟨1, [], [], []⟩ dupInit,
    uniquesGo_dup_shift (hashes tree) _ dupInit]
  rfl

/-- Claim C7: a run into an already-populated output root appends its new
blocks after the prior content of `duplicates_index.txt` (the prior content
remains a prefix, and the appended tail does not depend on the prior
content), while `master_file_index.txt` is rewritten from scratch — its final
content is the same whatever it held before. -/
theorem claim_c7_index_persistence (tree : List WalkEntry) (dupInit : List DupBlock)
    (old1 old2 : List (String × List String)) :
    duplicates_index tree dupInit = dupInit ++ duplicates_index tree [] ∧
    master_file_index tree old1 = master_file_index tree old2 := by
  constructor
  · show (runConsolidation tree dupInit).dupIndex = _
    rw [runConsolidation_dup_shift tree dupInit]
    rfl
  · rfl

/-! ### Copy-loop naming (claim C8) -/

theorem copyGroupGo_all_fresh (sfx : String) :
    ∀ (group : List String) (j : Nat) (dir : List String),
      (∀ fn ∈ group.map basenameStr, fn ∉ dir) →
      (group.map basenameStr).Nodup →
      copyGroupGo sfx group j dir = group.map basenameStr := by
  intro group
  induction group with
  | nil => intro j dir _ _; rfl
  | cons fp rest ih =>
      intro j dir hfresh hnd
      have hb : basenameStr fp ∉ dir :=
        hfresh _ (by simp)
      show (if basenameStr fp ∈ dir then _ else basenameStr fp) ::
          copyGroupGo sfx rest (j + 1)
            (dir ++ [if basenameStr fp ∈ dir then _ else basenameStr fp])
        = basenameStr fp :: rest.map basenameStr
      rw [if_neg hb]
      have hnd2 : (∀ x ∈ rest, ¬ basenameStr x = basenameStr fp) ∧
          (List.map basenameStr rest).Nodup := by simpa using hnd
      have hfresh2 : ∀ fn ∈ rest.map basenameStr, fn ∉ dir ++ [basenameStr fp] := by
        intro fn hfn hmem
        rcases List.mem_append.mp hmem with h1 | h1
        · exact hfresh fn (List.mem_cons_of_mem _ hfn) h1
        · obtain ⟨x, hx, hfx⟩ := List.mem_map.mp hfn
          exact hnd2.1 x hx (hfx.trans (List.mem_singleton.mp h1))
      rw [ih (j + 1) (dir ++ [basenameStr fp]) hfresh2 hnd2.2]

/-- Claim C8 counterexample: the collision fallback name is not re-checked
for existence, so in an exact-duplicate group whose members' basenames are
`a.jpg`, `a_dup2.jpg`, `a.jpg`, the second and third member are copied to
the same destination name `a_dup2.jpg` and the later copy overwrites the
earlier — the destination names are not pairwise distinct as the claim
states. -/
theorem claim_c8_counterexample :
    exact_dup_groups c8Tree = [c8Group] ∧
    copyGroupDests "_dup" c8Group = ["a.jpg", "a_dup2.jpg", "a_dup2.jpg"] ∧
    ¬ (copyGroupDests "_dup" c8Group).Nodup :=
  ⟨by decide, by decide, by decide⟩

/-- Claim C8 amended: in a fresh group directory, members keep their
basenames and all destination names are pairwise distinct provided the
members' basenames are pairwise distinct; a colliding basename is renamed by
inserting the suffix and member index before the extension, but that
fallback name is not itself checked, so distinctness is not guaranteed in
general (see the counterexample). -/
theorem claim_c8_amended_distinct (sfx : String) (group : List String)
    (h : (group.map basenameStr).Nodup) :
    copyGroupDests sfx group = group.map basenameStr ∧
    (copyGroupDests sfx group).Nodup := by
  have he : copyGroupDests sfx group = group.map basenameStr :=
    copyGroupGo_all_fresh sfx group 0 [] (by simp) h
  refine ⟨he, ?_⟩
  rw [he]
  exact h

theorem claim_c8_amended_witness :
    copyGroupDests "_dup" ["x/a.jpg", "y/b.jpg"] = ["a.jpg", "b.jpg"] ∧
    (copyGroupDests "_dup" ["x/a.jpg", "y/b.jpg"]).Nodup := by
  have h := claim_c8_amended_distinct "_dup" ["x/a.jpg", "y/b.jpg"] (by decide)
  exact ⟨h.1.trans (by decide), h.2⟩

/-! ### Closed instances of the claims on the sample data -/

theorem claim_c1_witness :
    (file_mapping sampleTree).countP (fun en => en.origs.contains "s/a.jpg") = 1 := by
  have h := claim_c1_mapping_partition sampleTree (by decide)
    ⟨"a.jpg", "s/a.jpg", true, "h1", some fpFar⟩ (by decide) rfl
  exact h.1

theorem claim_c2_witness :
    "s/a.jpg" ∈ (exact_dup_groups sampleTree).headD [] ∧
    "s/b.jpg" ∈ (exact_dup_groups sampleTree).headD [] ∧
    2 ≤ ((exact_dup_groups sampleTree).headD []).length := by
  have h := claim_c2_exact_group_membership sampleTree (by decide)
    ⟨"a.jpg", "s/a.jpg", true, "h1", some fpFar⟩
    ⟨"b.jpg", "s/b.jpg", true, "h1", some fpFar⟩
    (by decide) (by decide) rfl rfl (by decide)
  exact ⟨by decide, by decide, h.2.1 _ (by decide)⟩

theorem claim_c4_witness :
    2 ≤ ((simCluster sampleHashes).headD []).length := by
  have h := claim_c4_clusterer sampleHashes
  exact h.2.1 _ (by decide)

theorem claim_c5_witness :
    "s/e.jpg" ∉ (["s/a.jpg", "s/b.jpg"] : List String) :=
  claim_c5_partition_disjoint sampleTree2 ["s/e.jpg", "s/f.jpg"] (by decide)
    "s/e.jpg" (by decide) ["s/a.jpg", "s/b.jpg"] (by decide)

theorem claim_c6_witness :
    organize_duplicates sampleTree = (file_mapping sampleTree).length ∧
    "s/d.jpg" ∉ ((file_mapping sampleTree).headD ⟨0, "", "", []⟩).origs := by
  have h := claim_c6_unreadable_excluded sampleTree (by decide)
    ⟨"d.jpg", "s/d.jpg", false, "h3", none⟩ (by decide) rfl
  exact ⟨h.2.2.2, h.2.1 _ (by decide)⟩

theorem claim_c7_witness :
    duplicates_index sampleTree [⟨"f", "h", ["p"]⟩]
      = [⟨"f", "h", ["p"]⟩] ++ duplicates_index sampleTree [] ∧
    master_file_index sampleTree [("a", ["b"])] = master_file_index sampleTree [] :=
  claim_c7_index_persistence sampleTree [⟨"f", "h", ["p"]⟩] [("a", ["b"])] []

theorem claim_c9_witness :
    has_image_files sampleTreeNoImg = false ∧
    similar_groups sampleTreeNoImg = [] ∧
    run_image_hashes sampleTreeNoImg = [] := by
  have h := claim_c9_image_guard sampleTreeNoImg
  have hf : has_image_files sampleTreeNoImg = false := by decide
  exact ⟨hf, (h.2.1 hf).2, (h.2.1 hf).1⟩

theorem claim_c10_witness : "p3" ∉ (["p1", "p2"] : List String) :=
  claim_c10_discarded_seed_excluded sampleHashes (by decide) "p3" (by decide)
    ["p1", "p2"] (by decide)
